import Mathlib

/-!
Verification development for the satpass repository (pass-search and
track-correlation engine).  The source code is shallowly embedded over ℚ
(machine `f64` values are modelled as exact rationals; the claims under
study concern algorithm structure, not floating-point rounding).  External
capabilities (orbit kinematics via `predict_rs`/`sgp4`, geodesic distance
via `geographiclib_rs`) are abstracted as parameters, mirroring the design
document's treatment of them as black boxes.
-/

namespace Satpass

/-! ## Rust slice binary search

`slice::binary_search_by` from the Rust standard library, embedded over an
index comparator.  The search runs over the half-open index interval
`[left, right)`; `Except.ok i` is Rust's `Ok(i)` (comparator returned
`Equal` at `i`) and `Except.error ip` is `Err(ip)` (insertion point).  Both
`TLEManager::select_tle_index` and `BDeck::interpolate_with_index` call
this with a three-way rational comparator. -/

def rustBinarySearchGo (cmp : ℕ → Ordering) : ℕ → ℕ → ℕ → Except ℕ ℕ
  | 0, left, _ => Except.error left
  | fuel + 1, left, right =>
    if left < right then
      let mid := left + (right - left) / 2
      match cmp mid with
      | Ordering.lt => rustBinarySearchGo cmp fuel (mid + 1) right
      | Ordering.gt => rustBinarySearchGo cmp fuel left mid
      | Ordering.eq => Except.ok mid
    else Except.error left

/-- The loop of `binary_search_by` halves the interval each iteration, so
an initial fuel of `right - left` is never exhausted; the `fuel = 0` case
above is unreachable (proved inside `rustBinarySearch_cmpAt_spec`). -/
def rustBinarySearch (cmp : ℕ → Ordering) (left right : ℕ) : Except ℕ ℕ :=
  rustBinarySearchGo cmp (right - left) left right

/-- `f64::abs`, modelled over ℚ.  (Mathlib's lattice `|·|` is defeq-opaque
to the kernel, so the embedding uses this executable form; the two agree,
see `fabs_eq_abs`.) -/
def fabs (x : ℚ) : ℚ := if x < 0 then -x else x

theorem fabs_eq_abs (x : ℚ) : fabs x = |x| := by
  unfold fabs
  rcases lt_or_le x 0 with h | h
  · rw [if_pos h, abs_of_neg h]
  · rw [if_neg (not_lt.mpr h), abs_of_nonneg h]

/-- The three-way comparator used in both `select_tle_index` (on
`tle.epoch_timestamp`) and `interpolate_with_index` (on `self.time[i]`,
via `partial_cmp(..).unwrap_or(Less)`, which on rationals is total):
`Less` iff the element is below the target, `Greater` iff above. -/
def cmpAt (l : List ℚ) (target : ℚ) (i : ℕ) : Ordering :=
  if l.getD i 0 < target then Ordering.lt
  else if l.getD i 0 > target then Ordering.gt
  else Ordering.eq

/-- Loop specification of `rustBinarySearchGo` with the `cmpAt` comparator
over a (non-strictly) sorted list: given enough fuel, an `Ok` result is an
exact match inside the search interval and an `Err` result is an insertion
point separating elements below the target from elements above it. -/
theorem rustBinarySearchGo_cmpAt_spec (l : List ℚ) (t : ℚ)
    (mono : ∀ j, j < l.length → ∀ i, i ≤ j → l.getD i 0 ≤ l.getD j 0) :
    ∀ fuel left right, right - left ≤ fuel → right ≤ l.length →
    (∀ j, j < left → l.getD j 0 < t) →
    (∀ j, right ≤ j → j < l.length → t < l.getD j 0) →
    left ≤ right →
    (match rustBinarySearchGo (cmpAt l t) fuel left right with
     | Except.ok i => left ≤ i ∧ i < right ∧ l.getD i 0 = t
     | Except.error ip => left ≤ ip ∧ ip ≤ right ∧
         (∀ j, j < ip → l.getD j 0 < t) ∧
         (∀ j, ip ≤ j → j < l.length → t < l.getD j 0)) := by
  intro fuel
  induction fuel with
  | zero =>
    intro left right hfuel hr hleft hright hlr
    have : left = right := by omega
    simp only [rustBinarySearchGo]
    exact ⟨le_refl _, by omega, hleft, fun j hj hjl => hright j (by omega) hjl⟩
  | succ fuel ih =>
    intro left right hfuel hr hleft hright hlr
    simp only [rustBinarySearchGo]
    by_cases h : left < right
    · simp only [h, if_pos]
      set mid := left + (right - left) / 2 with hmid
      have hmidlt : mid < right := by
        have := Nat.div_lt_self (Nat.sub_pos_of_lt h) (by norm_num : 1 < 2)
        omega
      have hmidge : left ≤ mid := by omega
      rcases lt_trichotomy (l.getD mid 0) t with hc | hc | hc
      · have hcmp : cmpAt l t mid = Ordering.lt := by
          unfold cmpAt; rw [if_pos hc]
        rw [hcmp]
        have hleft' : ∀ j, j < mid + 1 → l.getD j 0 < t := by
          intro j hj
          calc l.getD j 0 ≤ l.getD mid 0 := mono mid (by omega) j (by omega)
            _ < t := hc
        have := ih (mid + 1) right (by omega) hr hleft' hright (by omega)
        revert this
        cases rustBinarySearchGo (cmpAt l t) fuel (mid + 1) right with
        | ok i => intro ⟨h1, h2, h3⟩; exact ⟨by omega, h2, h3⟩
        | error ip => intro ⟨h1, h2, h3, h4⟩; exact ⟨by omega, h2, h3, h4⟩
      · have hcmp : cmpAt l t mid = Ordering.eq := by
          unfold cmpAt
          rw [if_neg (by linarith), if_neg (by rw [hc]; exact lt_irrefl t)]
        rw [hcmp]
        exact ⟨hmidge, hmidlt, hc⟩
      · have hcmp : cmpAt l t mid = Ordering.gt := by
          unfold cmpAt
          rw [if_neg (by linarith), if_pos hc]
        rw [hcmp]
        have hright' : ∀ j, mid ≤ j → j < l.length → t < l.getD j 0 := by
          intro j hj hjl
          calc t < l.getD mid 0 := hc
            _ ≤ l.getD j 0 := mono j hjl mid hj
        have hsz : mid - left ≤ fuel := by
          have : (right - left) / 2 ≤ right - left - 1 := by
            have := Nat.div_lt_self (Nat.sub_pos_of_lt h) (by norm_num : 1 < 2)
            omega
          omega
        have := ih left mid hsz (by omega) hleft hright' (by omega)
        revert this
        cases rustBinarySearchGo (cmpAt l t) fuel left mid with
        | ok i => intro ⟨h1, h2, h3⟩; exact ⟨h1, by omega, h3⟩
        | error ip => intro ⟨h1, h2, h3, h4⟩; exact ⟨h1, by omega, h3, h4⟩
    · simp only [h, if_neg, not_false_iff]
      have : left = right := by omega
      exact ⟨le_refl _, by omega, hleft, fun j hj hjl => hright j (by omega) hjl⟩

/-- `rustBinarySearch_cmpAt_spec`: top-level form of the loop
specification, at the fuel used by `rustBinarySearch`. -/
theorem rustBinarySearch_cmpAt_spec (l : List ℚ) (t : ℚ)
    (mono : ∀ j, j < l.length → ∀ i, i ≤ j → l.getD i 0 ≤ l.getD j 0)
    (left right : ℕ) (hr : right ≤ l.length)
    (hleft : ∀ j, j < left → l.getD j 0 < t)
    (hright : ∀ j, right ≤ j → j < l.length → t < l.getD j 0)
    (hlr : left ≤ right) :
    (match rustBinarySearch (cmpAt l t) left right with
     | Except.ok i => left ≤ i ∧ i < right ∧ l.getD i 0 = t
     | Except.error ip => left ≤ ip ∧ ip ≤ right ∧
         (∀ j, j < ip → l.getD j 0 < t) ∧
         (∀ j, ip ≤ j → j < l.length → t < l.getD j 0)) :=
  rustBinarySearchGo_cmpAt_spec l t mono (right - left) left right (le_refl _)
    hr hleft hright hlr

/-! ## Orbital-element store (`src/tle.rs`)

`TLE` keeps the two raw element lines and the derived epoch timestamp
(seconds since the Unix epoch, here an exact rational).  `TLEManager`
holds the epoch-sorted collection. -/

structure TLE where
  line1 : String
  line2 : String
  epoch_timestamp : ℚ
deriving DecidableEq

structure TLEManager where
  tles : List TLE
deriving DecidableEq

/-- The epoch timestamps of the stored records, in store order. -/
def TLEManager.epochs (m : TLEManager) : List ℚ :=
  m.tles.map TLE.epoch_timestamp

/-- `TLEManager::select_tle_index` from `src/tle.rs`: empty-store check,
then `binary_search_by` with the three-way epoch comparator; on a miss the
insertion point is clamped at either end, otherwise whichever of the two
neighbouring records has the smaller absolute epoch difference is chosen,
with `<=` favouring the earlier record. -/
def TLEManager.select_tle_index (m : TLEManager) (target_time : ℚ) : Option ℕ :=
  if m.tles.isEmpty then none
  else
    match rustBinarySearch (cmpAt m.epochs target_time) 0 m.tles.length with
    | Except.ok index => some index
    | Except.error insert_index =>
      if insert_index = 0 then some 0
      else if insert_index ≥ m.tles.length then some (m.tles.length - 1)
      else
        let before := insert_index - 1
        let after := insert_index
        if fabs (m.epochs.getD before 0 - target_time) ≤ fabs (m.epochs.getD after 0 - target_time) then
          some before
        else some after

theorem TLEManager.epochs_length (m : TLEManager) : m.epochs.length = m.tles.length := by
  simp [TLEManager.epochs]

/-- C2.  For every element store sorted ascending by epoch timestamp,
`select_tle_index t` returns `none` iff the store is empty; on a non-empty
store it returns `some i` where record `i` minimises the absolute epoch
difference `|epoch_i - t|` over all records; queries before the first
epoch return index 0 and queries after the last return the last index
(clamping); when `t` falls strictly between two consecutive epochs and the
earlier one is at least as close, the earlier index is returned (ties
favour the earlier record).  Concretely, for epochs 100, 200, 300:
`select 240 = some 1`, `select 260 = some 2`, `select 50 = some 0`,
`select 350 = some 2`. -/
theorem select_tle_index_nearest (m : TLEManager) (t : ℚ)
    (mono : ∀ j, j < m.epochs.length → ∀ i, i ≤ j →
      m.epochs.getD i 0 ≤ m.epochs.getD j 0) :
    ((m.select_tle_index t = none ↔ m.tles = []) ∧
     (m.tles ≠ [] → ∃ i, m.select_tle_index t = some i ∧ i < m.tles.length ∧
        ∀ j, j < m.tles.length →
          |m.epochs.getD i 0 - t| ≤ |m.epochs.getD j 0 - t|) ∧
     (m.tles ≠ [] → t < m.epochs.getD 0 0 → m.select_tle_index t = some 0) ∧
     (m.tles ≠ [] → m.epochs.getD (m.tles.length - 1) 0 < t →
        m.select_tle_index t = some (m.tles.length - 1)) ∧
     (∀ b, b + 1 < m.tles.length → m.epochs.getD b 0 < t →
        t < m.epochs.getD (b + 1) 0 →
        t - m.epochs.getD b 0 ≤ m.epochs.getD (b + 1) 0 - t →
        m.select_tle_index t = some b)) ∧
    ((TLEManager.mk [⟨"", "", 100⟩, ⟨"", "", 200⟩, ⟨"", "", 300⟩]).select_tle_index 240
        = some 1 ∧
     (TLEManager.mk [⟨"", "", 100⟩, ⟨"", "", 200⟩, ⟨"", "", 300⟩]).select_tle_index 260
        = some 2 ∧
     (TLEManager.mk [⟨"", "", 100⟩, ⟨"", "", 200⟩, ⟨"", "", 300⟩]).select_tle_index 50
        = some 0 ∧
     (TLEManager.mk [⟨"", "", 100⟩, ⟨"", "", 200⟩, ⟨"", "", 300⟩]).select_tle_index 350
        = some 2) := by
  have hlen := m.epochs_length
  constructor
  · by_cases hemp : m.tles = []
    · have hsel : m.select_tle_index t = none := by
        unfold TLEManager.select_tle_index
        rw [if_pos (by rw [hemp]; rfl)]
      refine ⟨by simp [hsel, hemp], fun hne => absurd hemp hne,
        fun hne => absurd hemp hne, fun hne => absurd hemp hne, ?_⟩
      intro b hb
      rw [hemp] at hb
      simp at hb
    · have hempb : m.tles.isEmpty = false := by
        cases hmt : m.tles with
        | nil => exact absurd hmt hemp
        | cons a l => rfl
      have hlenpos : 0 < m.tles.length := by
        cases hmt : m.tles with
        | nil => exact absurd hmt hemp
        | cons a l => simp [hmt]
      have hsel : m.select_tle_index t =
          match rustBinarySearch (cmpAt m.epochs t) 0 m.tles.length with
          | Except.ok index => some index
          | Except.error insert_index =>
            if insert_index = 0 then some 0
            else if insert_index ≥ m.tles.length then some (m.tles.length - 1)
            else
              if fabs (m.epochs.getD (insert_index - 1) 0 - t) ≤
                 fabs (m.epochs.getD insert_index 0 - t) then
                some (insert_index - 1)
              else some insert_index := by
        unfold TLEManager.select_tle_index
        rw [if_neg (by rw [hempb]; simp)]
      have hbs := rustBinarySearch_cmpAt_spec m.epochs t mono 0 m.tles.length
        (le_of_eq hlen.symm) (fun j hj => absurd hj (Nat.not_lt_zero j))
        (fun j hj hjl => absurd hjl (by omega)) (by omega)
      cases hres : rustBinarySearch (cmpAt m.epochs t) 0 m.tles.length with
      | ok i =>
        rw [hres] at hbs hsel
        obtain ⟨-, hilt, hieq⟩ := hbs
        have hsel' : m.select_tle_index t = some i := hsel
        refine ⟨by simp [hsel', hemp], ?_, ?_, ?_, ?_⟩
        · intro _
          refine ⟨i, hsel', hilt, fun j hj => ?_⟩
          rw [hieq]
          simp [abs_nonneg]
        · intro _ hlt
          exfalso
          have := mono i (by omega) 0 (Nat.zero_le i)
          rw [hieq] at this
          linarith
        · intro _ hgt
          exfalso
          have := mono (m.tles.length - 1) (by omega) i (by omega)
          rw [hieq] at this
          linarith
        · intro b hb h1 h2 _
          exfalso
          rcases le_or_lt i b with hib | hib
          · have := mono b (by omega) i hib
            rw [hieq] at this
            linarith
          · have := mono i (by omega) (b + 1) (by omega)
            rw [hieq] at this
            linarith
      | error ip =>
        rw [hres] at hbs hsel
        obtain ⟨-, hiple, hlow, hhigh⟩ := hbs
        have hsel' : m.select_tle_index t =
            (if ip = 0 then some 0
             else if ip ≥ m.tles.length then some (m.tles.length - 1)
             else
               if fabs (m.epochs.getD (ip - 1) 0 - t) ≤
                  fabs (m.epochs.getD ip 0 - t) then some (ip - 1)
               else some ip) := hsel
        refine ⟨?_, ?_, ?_, ?_, ?_⟩
        · constructor
          · intro h
            rw [hsel'] at h
            by_cases hip0 : ip = 0
            · rw [if_pos hip0] at h; exact absurd h (by simp)
            · rw [if_neg hip0] at h
              by_cases hiplen : ip ≥ m.tles.length
              · rw [if_pos hiplen] at h; exact absurd h (by simp)
              · rw [if_neg hiplen] at h
                by_cases hcomp : fabs (m.epochs.getD (ip - 1) 0 - t) ≤
                    fabs (m.epochs.getD ip 0 - t)
                · rw [if_pos hcomp] at h; exact absurd h (by simp)
                · rw [if_neg hcomp] at h; exact absurd h (by simp)
          · intro h
            exact absurd h hemp
        · intro _
          by_cases hip0 : ip = 0
          · refine ⟨0, by rw [hsel', if_pos hip0], hlenpos, fun j hj => ?_⟩
            have h0 : t < m.epochs.getD 0 0 := hhigh 0 (by omega) (by omega)
            have hj' : t < m.epochs.getD j 0 := hhigh j (by omega) (by omega)
            have hmono := mono j (by omega) 0 (Nat.zero_le j)
            rw [abs_of_pos (by linarith : (0:ℚ) < m.epochs.getD 0 0 - t),
              abs_of_pos (by linarith : (0:ℚ) < m.epochs.getD j 0 - t)]
            linarith
          · by_cases hiplen : ip ≥ m.tles.length
            · refine ⟨m.tles.length - 1, by rw [hsel', if_neg hip0, if_pos hiplen],
                by omega, fun j hj => ?_⟩
              have hlast : m.epochs.getD (m.tles.length - 1) 0 < t :=
                hlow (m.tles.length - 1) (by omega)
              have hj' : m.epochs.getD j 0 < t := hlow j (by omega)
              have hmono := mono (m.tles.length - 1) (by omega) j (by omega)
              rw [abs_of_neg (by linarith : m.epochs.getD (m.tles.length - 1) 0 - t < 0),
                abs_of_neg (by linarith : m.epochs.getD j 0 - t < 0)]
              linarith
            · have hbefore : m.epochs.getD (ip - 1) 0 < t := hlow (ip - 1) (by omega)
              have hafter : t < m.epochs.getD ip 0 := hhigh ip (by omega) (by omega)
              have d1 : |m.epochs.getD (ip - 1) 0 - t| = t - m.epochs.getD (ip - 1) 0 := by
                rw [abs_of_neg (by linarith : m.epochs.getD (ip - 1) 0 - t < 0)]
                ring
              have d2 : |m.epochs.getD ip 0 - t| = m.epochs.getD ip 0 - t :=
                abs_of_pos (by linarith)
              have hdom : ∀ j, j < m.tles.length →
                  (j < ip → t - m.epochs.getD (ip - 1) 0 ≤ |m.epochs.getD j 0 - t|) ∧
                  (ip ≤ j → m.epochs.getD ip 0 - t ≤ |m.epochs.getD j 0 - t|) := by
                intro j hj
                constructor
                · intro hjip
                  have hjlt : m.epochs.getD j 0 < t := hlow j hjip
                  have := mono (ip - 1) (by omega) j (by omega)
                  rw [abs_of_neg (by linarith : m.epochs.getD j 0 - t < 0)]
                  linarith
                · intro hjip
                  have hjgt : t < m.epochs.getD j 0 := hhigh j hjip (by omega)
                  have := mono j (by omega) ip hjip
                  rw [abs_of_pos (by linarith : (0:ℚ) < m.epochs.getD j 0 - t)]
                  linarith
              by_cases hcomp : fabs (m.epochs.getD (ip - 1) 0 - t) ≤
                  fabs (m.epochs.getD ip 0 - t)
              · refine ⟨ip - 1, by rw [hsel', if_neg hip0, if_neg hiplen, if_pos hcomp],
                  by omega, fun j hj => ?_⟩
                rcases lt_or_le j ip with hjip | hjip
                · rw [d1]
                  exact (hdom j hj).1 hjip
                · rw [fabs_eq_abs, fabs_eq_abs] at hcomp
                  calc |m.epochs.getD (ip - 1) 0 - t| ≤ |m.epochs.getD ip 0 - t| := hcomp
                    _ = m.epochs.getD ip 0 - t := d2
                    _ ≤ |m.epochs.getD j 0 - t| := (hdom j hj).2 hjip
              · refine ⟨ip, by rw [hsel', if_neg hip0, if_neg hiplen, if_neg hcomp],
                  by omega, fun j hj => ?_⟩
                rcases lt_or_le j ip with hjip | hjip
                · rw [fabs_eq_abs, fabs_eq_abs] at hcomp
                  have hcomp' := le_of_lt (not_le.mp hcomp)
                  calc |m.epochs.getD ip 0 - t| ≤ |m.epochs.getD (ip - 1) 0 - t| := hcomp'
                    _ = t - m.epochs.getD (ip - 1) 0 := d1
                    _ ≤ |m.epochs.getD j 0 - t| := (hdom j hj).1 hjip
                · rw [d2]
                  exact (hdom j hj).2 hjip
        · intro _ hlt
          have hip0 : ip = 0 := by
            by_contra h
            have := hlow 0 (by omega)
            have hm := mono 0 (by omega) 0 (le_refl 0)
            linarith
          rw [hsel', if_pos hip0]
        · intro _ hgt
          have hiplen : ip ≥ m.tles.length := by
            by_contra h
            have h1 := hhigh ip (by omega) (by omega)
            have h2 := mono (m.tles.length - 1) (by omega) ip (by omega)
            linarith
          have hip0 : ¬ ip = 0 := by omega
          rw [hsel', if_neg hip0, if_pos hiplen]
        · intro b hb h1 h2 h3
          have hip : ip = b + 1 := by
            rcases Nat.lt_trichotomy ip (b + 1) with h | h | h
            · exfalso
              have := hhigh b (by omega) (by omega)
              linarith
            · exact h
            · exfalso
              have := hlow (b + 1) (by omega)
              linarith
          subst hip
          have hcomp : fabs (m.epochs.getD (b + 1 - 1) 0 - t) ≤
              fabs (m.epochs.getD (b + 1) 0 - t) := by
            have hb1 : b + 1 - 1 = b := by omega
            rw [hb1, fabs_eq_abs, fabs_eq_abs,
              abs_of_neg (by linarith : m.epochs.getD b 0 - t < 0),
              abs_of_pos (by linarith : (0:ℚ) < m.epochs.getD (b + 1) 0 - t)]
            linarith
          have hne0 : ¬ b + 1 = 0 := by omega
          have hnelen : ¬ b + 1 ≥ m.tles.length := by omega
          rw [hsel', if_neg hne0, if_neg hnelen, if_pos hcomp]
          simp
  · refine ⟨?_, ?_, ?_, ?_⟩ <;>
      norm_num [TLEManager.select_tle_index, TLEManager.epochs, rustBinarySearch,
        rustBinarySearchGo, cmpAt, fabs]

/-- Witness for `select_tle_index_nearest`: the three-record store with
epochs 100, 200, 300 is sorted, and applying the theorem to it at query
time 240 yields the claimed nearest-record selection. -/
theorem select_tle_index_nearest_witness :
    (∀ j, j < (TLEManager.mk [⟨"", "", 100⟩, ⟨"", "", 200⟩, ⟨"", "", 300⟩]).epochs.length →
      ∀ i, i ≤ j →
        (TLEManager.mk [⟨"", "", 100⟩, ⟨"", "", 200⟩, ⟨"", "", 300⟩]).epochs.getD i 0 ≤
        (TLEManager.mk [⟨"", "", 100⟩, ⟨"", "", 200⟩, ⟨"", "", 300⟩]).epochs.getD j 0) ∧
    (TLEManager.mk [⟨"", "", 100⟩, ⟨"", "", 200⟩, ⟨"", "", 300⟩]).select_tle_index 240
      = some 1 :=
  ⟨by decide,
   (select_tle_index_nearest
     (TLEManager.mk [⟨"", "", 100⟩, ⟨"", "", 200⟩, ⟨"", "", 300⟩]) 240 (by decide)).2.1⟩

/-! ## Track store (`src/bdeck.rs`)

`BDeck` holds the parallel arrays of fix timestamps, intensities and
positions.  `interpolate_with_index` is the cursor-assisted linear
interpolator; the caller-held mutable cursor is modelled by returning the
updated cursor alongside the optional result. -/

structure BDeck where
  time : List ℚ
  intensity : List ℚ
  latitude : List ℚ
  longitude : List ℚ
deriving DecidableEq

/-- The `(lat, lon, intensity)` triple stored at fix `i`, the tuple shape
returned by `interpolate_with_index`. -/
def BDeck.vals (b : BDeck) (i : ℕ) : ℚ × ℚ × ℚ :=
  (b.latitude.getD i 0, b.longitude.getD i 0, b.intensity.getD i 0)

/-- The linear-interpolation tail of `interpolate_with_index`:
`factor = (query_time - t0) / (t1 - t0)` applied to latitude, longitude
and intensity between fixes `i` and `i + 1`. -/
def BDeck.lerpAt (b : BDeck) (query_time : ℚ) (i : ℕ) : ℚ × ℚ × ℚ :=
  let t0 := b.time.getD i 0
  let t1 := b.time.getD (i + 1) 0
  let factor := (query_time - t0) / (t1 - t0)
  (b.latitude.getD i 0 + factor * (b.latitude.getD (i + 1) 0 - b.latitude.getD i 0),
   b.longitude.getD i 0 + factor * (b.longitude.getD (i + 1) 0 - b.longitude.getD i 0),
   b.intensity.getD i 0 + factor * (b.intensity.getD (i + 1) 0 - b.intensity.getD i 0))

/-- The forward-scan loop
`while i + 1 < self.time.len() && self.time[i + 1] < query_time { i += 1 }`,
with fuel; `time.length - i` fuel is always enough (the loop advances `i`
by one while `i + 1 < time.length`). -/
def advanceGo (time : List ℚ) (query_time : ℚ) : ℕ → ℕ → ℕ
  | 0, i => i
  | fuel + 1, i =>
    if i + 1 < time.length ∧ time.getD (i + 1) 0 < query_time then
      advanceGo time query_time fuel (i + 1)
    else i

def advanceIdx (time : List ℚ) (query_time : ℚ) (i : ℕ) : ℕ :=
  advanceGo time query_time (time.length - i) i

theorem advanceGo_spec (time : List ℚ) (query_time : ℚ) :
    ∀ fuel i, time.length - i ≤ fuel →
      i ≤ advanceGo time query_time fuel i ∧
      (i < time.length → advanceGo time query_time fuel i < time.length) ∧
      ¬(advanceGo time query_time fuel i + 1 < time.length ∧
        time.getD (advanceGo time query_time fuel i + 1) 0 < query_time) ∧
      (advanceGo time query_time fuel i = i ∨
        time.getD (advanceGo time query_time fuel i) 0 < query_time) := by
  intro fuel
  induction fuel with
  | zero =>
    intro i hfuel
    show i ≤ i ∧ (i < time.length → i < time.length) ∧
      ¬(i + 1 < time.length ∧ time.getD (i + 1) 0 < query_time) ∧
      (i = i ∨ time.getD i 0 < query_time)
    exact ⟨le_refl _, fun h => h, fun hc => absurd hc.1 (by omega), Or.inl rfl⟩
  | succ fuel ih =>
    intro i hfuel
    simp only [advanceGo]
    by_cases hc : i + 1 < time.length ∧ time.getD (i + 1) 0 < query_time
    · rw [if_pos hc]
      obtain ⟨ha, hb, hcnd, hval⟩ := ih (i + 1) (by omega)
      refine ⟨by omega, fun _ => hb hc.1, hcnd, ?_⟩
      rcases hval with h | h
      · right; rw [h]; exact hc.2
      · right; exact h
    · rw [if_neg hc]
      exact ⟨le_refl _, fun h => h, hc, Or.inl rfl⟩

theorem advanceIdx_spec (time : List ℚ) (query_time : ℚ) (i : ℕ) :
    i ≤ advanceIdx time query_time i ∧
    (i < time.length → advanceIdx time query_time i < time.length) ∧
    ¬(advanceIdx time query_time i + 1 < time.length ∧
      time.getD (advanceIdx time query_time i + 1) 0 < query_time) ∧
    (advanceIdx time query_time i = i ∨
      time.getD (advanceIdx time query_time i) 0 < query_time) :=
  advanceGo_spec time query_time (time.length - i) i (le_refl _)

/-- `BDeck::interpolate_with_index` from `src/bdeck.rs`.  The pair's
second component is the value of the caller's `index` after the call (the
Rust code mutates it through `&mut usize`; paths that return `None`
leave it untouched). -/
def BDeck.finishInterp (b : BDeck) (query_time : ℚ) (index : ℕ) (i : ℕ) :
    Option (ℚ × ℚ × ℚ) × ℕ :=
  if b.time.getD i 0 = query_time then (some (b.vals i), i)
  else if i + 1 < b.time.length ∧ b.time.getD (i + 1) 0 = query_time then
    (some (b.vals (i + 1)), i + 1)
  else if i + 1 ≥ b.time.length then (none, index)
  else (some (b.lerpAt query_time i), i)

def BDeck.interpolate_with_index (b : BDeck) (query_time : ℚ) (index : ℕ) :
    Option (ℚ × ℚ × ℚ) × ℕ :=
  if b.time.isEmpty then (none, index)
  else if query_time < b.time.getD 0 0 ∨
      b.time.getD (b.time.length - 1) 0 < query_time then
    (none, index)
  else
    let i0 := min index (b.time.length - 1)
    if query_time < b.time.getD i0 0 then
      match rustBinarySearch (cmpAt b.time query_time) 0 b.time.length with
      | Except.ok found => (some (b.vals found), found)
      | Except.error found =>
        if found = 0 ∨ found ≥ b.time.length then (none, index)
        else b.finishInterp query_time index (found - 1)
    else b.finishInterp query_time index (advanceIdx b.time query_time i0)

theorem isEmpty_false {α : Type} (l : List α) (h : l ≠ []) : l.isEmpty = false := by
  cases l with
  | nil => exact absurd rfl h
  | cons a t => rfl

theorem strict_getD_le {time : List ℚ}
    (hmono : ∀ j, j < time.length → ∀ i, i < j → time.getD i 0 < time.getD j 0) :
    ∀ j, j < time.length → ∀ i, i ≤ j → time.getD i 0 ≤ time.getD j 0 := by
  intro j hj i hij
  rcases eq_or_lt_of_le hij with h | h
  · rw [h]
  · exact le_of_lt (hmono j hj i h)

/-- Unfolding of `interpolate_with_index` once the empty and out-of-range
early returns are discharged. -/
theorem interpolate_with_index_eq (b : BDeck) (query_time : ℚ) (index : ℕ)
    (hne : b.time ≠ [])
    (hrange : ¬(query_time < b.time.getD 0 0 ∨
      b.time.getD (b.time.length - 1) 0 < query_time)) :
    b.interpolate_with_index query_time index =
      if query_time < b.time.getD (min index (b.time.length - 1)) 0 then
        match rustBinarySearch (cmpAt b.time query_time) 0 b.time.length with
        | Except.ok found => (some (b.vals found), found)
        | Except.error found =>
          if found = 0 ∨ found ≥ b.time.length then (none, index)
          else b.finishInterp query_time index (found - 1)
      else b.finishInterp query_time index
        (advanceIdx b.time query_time (min index (b.time.length - 1))) := by
  unfold BDeck.interpolate_with_index
  rw [if_neg (by rw [isEmpty_false _ hne]; simp), if_neg hrange]

/-- Characterisation of `interpolate_with_index` on an in-range query over
a strictly increasing track: the result is the stored triple of the fix
whose timestamp matches exactly, or the linear interpolation between the
unique bracketing pair. -/
theorem interpolate_in_range (b : BDeck) (query_time : ℚ) (index : ℕ)
    (hmono : ∀ j, j < b.time.length → ∀ i, i < j →
      b.time.getD i 0 < b.time.getD j 0)
    (hne : b.time ≠ [])
    (hlo : b.time.getD 0 0 ≤ query_time)
    (hhi : query_time ≤ b.time.getD (b.time.length - 1) 0) :
    ∃ i, i < b.time.length ∧
      ((b.time.getD i 0 = query_time ∧
        (b.interpolate_with_index query_time index).1 = some (b.vals i)) ∨
       (i + 1 < b.time.length ∧ b.time.getD i 0 < query_time ∧
        query_time < b.time.getD (i + 1) 0 ∧
        (b.interpolate_with_index query_time index).1 =
          some (b.lerpAt query_time i))) := by
  have hlen0 : 0 < b.time.length := List.length_pos.mpr hne
  have hmono' := strict_getD_le hmono
  have hrange : ¬(query_time < b.time.getD 0 0 ∨
      b.time.getD (b.time.length - 1) 0 < query_time) := by
    push_neg
    exact ⟨hlo, hhi⟩
  have heq := interpolate_with_index_eq b query_time index hne hrange
  have hi0lt : min index (b.time.length - 1) < b.time.length := by
    have := min_le_right index (b.time.length - 1)
    omega
  set i0 := min index (b.time.length - 1) with hi0
  by_cases hcase : query_time < b.time.getD i0 0
  · rw [if_pos hcase] at heq
    have hbs := rustBinarySearch_cmpAt_spec b.time query_time hmono' 0
      b.time.length (le_refl _) (fun j hj => absurd hj (Nat.not_lt_zero j))
      (fun j hj hjl => absurd hjl (by omega)) (by omega)
    cases hres : rustBinarySearch (cmpAt b.time query_time) 0 b.time.length with
    | ok found =>
      rw [hres] at hbs heq
      obtain ⟨-, hflt, hfeq⟩ := hbs
      have heq2 : b.interpolate_with_index query_time index =
          (some (b.vals found), found) := heq
      exact ⟨found, hflt, Or.inl ⟨hfeq, by rw [heq2]⟩⟩
    | error found =>
      rw [hres] at hbs heq
      obtain ⟨-, hfle, hlow, hhigh⟩ := hbs
      have hne0 : found ≠ 0 := by
        intro h
        have := hhigh 0 (by omega) (by omega)
        linarith
      have hflt : found < b.time.length := by
        by_contra h
        have := hlow (b.time.length - 1) (by omega)
        linarith
      have heq2 : b.interpolate_with_index query_time index =
          (if found = 0 ∨ found ≥ b.time.length then (none, index)
           else b.finishInterp query_time index (found - 1)) := heq
      rw [if_neg (by push_neg; exact ⟨hne0, by omega⟩)] at heq2
      have hb1 : b.time.getD (found - 1) 0 < query_time := hlow (found - 1) (by omega)
      have hb2 : query_time < b.time.getD found 0 := hhigh found (le_refl _) hflt
      have hfin : b.finishInterp query_time index (found - 1) =
          (some (b.lerpAt query_time (found - 1)), found - 1) := by
        unfold BDeck.finishInterp
        have hf1 : found - 1 + 1 = found := by omega
        rw [hf1, if_neg (ne_of_lt hb1),
          if_neg (fun hx => absurd hx.2 (ne_of_gt hb2)),
          if_neg (by omega)]
      refine ⟨found - 1, by omega, Or.inr ⟨by omega, hb1, ?_, ?_⟩⟩
      · rw [show found - 1 + 1 = found from by omega]
        exact hb2
      · rw [heq2, hfin]
  · rw [if_neg hcase] at heq
    obtain ⟨hr1, hr2, hr3, hr4⟩ := advanceIdx_spec b.time query_time i0
    set r := advanceIdx b.time query_time i0 with hrdef
    have hrlt : r < b.time.length := hr2 hi0lt
    have hrle : b.time.getD r 0 ≤ query_time := by
      rcases hr4 with h | h
      · rw [h]; exact not_lt.mp hcase
      · exact le_of_lt h
    rcases eq_or_lt_of_le hrle with hreq | hrlt'
    · have hfin : b.finishInterp query_time index r = (some (b.vals r), r) := by
        unfold BDeck.finishInterp
        rw [if_pos hreq]
      exact ⟨r, hrlt, Or.inl ⟨hreq, by rw [heq, hfin]⟩⟩
    · by_cases hx : r + 1 < b.time.length ∧ b.time.getD (r + 1) 0 = query_time
      · have hfin : b.finishInterp query_time index r =
            (some (b.vals (r + 1)), r + 1) := by
          unfold BDeck.finishInterp
          rw [if_neg (ne_of_lt hrlt'), if_pos hx]
        exact ⟨r + 1, hx.1, Or.inl ⟨hx.2, by rw [heq, hfin]⟩⟩
      · have hrlen : r + 1 < b.time.length := by
          by_contra h
          have : r = b.time.length - 1 := by omega
          rw [this] at hrlt'
          linarith
        have hgt : query_time < b.time.getD (r + 1) 0 := by
          rcases lt_trichotomy query_time (b.time.getD (r + 1) 0) with h | h | h
          · exact h
          · exact absurd ⟨hrlen, h.symm⟩ hx
          · exact absurd ⟨hrlen, h⟩ hr3
        have hfin : b.finishInterp query_time index r =
            (some (b.lerpAt query_time r), r) := by
          unfold BDeck.finishInterp
          rw [if_neg (ne_of_lt hrlt'), if_neg hx, if_neg (by omega)]
        exact ⟨r, hrlt, Or.inr ⟨hrlen, hrlt', hgt, by rw [heq, hfin]⟩⟩

/-- C3.  For every track store with a non-empty, strictly increasing
timestamp sequence and every cursor value, `interpolate_with_index`
returns `none` if and only if the query time lies strictly before the
first fix's time or strictly after the last fix's time (no extrapolation
outside the track's range). -/
theorem interpolate_none_iff_out_of_range (b : BDeck) (query_time : ℚ) (index : ℕ)
    (hmono : ∀ j, j < b.time.length → ∀ i, i < j →
      b.time.getD i 0 < b.time.getD j 0)
    (hne : b.time ≠ []) :
    (b.interpolate_with_index query_time index).1 = none ↔
      (query_time < b.time.getD 0 0 ∨
       b.time.getD (b.time.length - 1) 0 < query_time) := by
  constructor
  · intro h
    by_contra hout
    push_neg at hout
    obtain ⟨i, -, hcase⟩ :=
      interpolate_in_range b query_time index hmono hne hout.1 hout.2
    rcases hcase with ⟨-, hv⟩ | ⟨-, -, -, hv⟩ <;> rw [hv] at h <;> simp at h
  · intro hout
    unfold BDeck.interpolate_with_index
    rw [if_neg (by rw [isEmpty_false _ hne]; simp), if_pos hout]

/-- Witness for `interpolate_none_iff_out_of_range`: a concrete two-fix
track, queried before its first fix with cursor 1. -/
theorem interpolate_none_iff_out_of_range_witness :
    (∀ j, j < (BDeck.mk [100, 200] [10, 20] [1, 2] [5, 6]).time.length →
      ∀ i, i < j →
        (BDeck.mk [100, 200] [10, 20] [1, 2] [5, 6]).time.getD i 0 <
        (BDeck.mk [100, 200] [10, 20] [1, 2] [5, 6]).time.getD j 0) ∧
    (((BDeck.mk [100, 200] [10, 20] [1, 2] [5, 6]).interpolate_with_index 50 1).1 = none ↔
      ((50:ℚ) < (BDeck.mk [100, 200] [10, 20] [1, 2] [5, 6]).time.getD 0 0 ∨
       (BDeck.mk [100, 200] [10, 20] [1, 2] [5, 6]).time.getD
         ((BDeck.mk [100, 200] [10, 20] [1, 2] [5, 6]).time.length - 1) 0 < 50)) :=
  ⟨by decide,
   interpolate_none_iff_out_of_range (BDeck.mk [100, 200] [10, 20] [1, 2] [5, 6])
     50 1 (by decide) (by decide)⟩

/-- C4.  Over a strictly increasing track and for any cursor value: at the
exact timestamp of a fix the interpolator returns that fix's stored
latitude, longitude and intensity verbatim; strictly between two
consecutive fixes it returns, for each component, exactly
`v0 + ((query_time - t0) / (t1 - t0)) * (v1 - v0)`, with the fractional
position strictly between 0 and 1 (a strict convex combination). -/
theorem interpolate_exact_and_convex (b : BDeck) (index : ℕ) (k : ℕ)
    (hmono : ∀ j, j < b.time.length → ∀ i, i < j →
      b.time.getD i 0 < b.time.getD j 0)
    (hk : k + 1 < b.time.length) :
    ((b.interpolate_with_index (b.time.getD k 0) index).1 =
        some (b.latitude.getD k 0, b.longitude.getD k 0, b.intensity.getD k 0) ∧
     (b.interpolate_with_index (b.time.getD (k + 1) 0) index).1 =
        some (b.latitude.getD (k + 1) 0, b.longitude.getD (k + 1) 0,
          b.intensity.getD (k + 1) 0)) ∧
    (∀ query_time, b.time.getD k 0 < query_time →
      query_time < b.time.getD (k + 1) 0 →
      (b.interpolate_with_index query_time index).1 =
        some (b.latitude.getD k 0 +
                (query_time - b.time.getD k 0) /
                  (b.time.getD (k + 1) 0 - b.time.getD k 0) *
                  (b.latitude.getD (k + 1) 0 - b.latitude.getD k 0),
              b.longitude.getD k 0 +
                (query_time - b.time.getD k 0) /
                  (b.time.getD (k + 1) 0 - b.time.getD k 0) *
                  (b.longitude.getD (k + 1) 0 - b.longitude.getD k 0),
              b.intensity.getD k 0 +
                (query_time - b.time.getD k 0) /
                  (b.time.getD (k + 1) 0 - b.time.getD k 0) *
                  (b.intensity.getD (k + 1) 0 - b.intensity.getD k 0)) ∧
      0 < (query_time - b.time.getD k 0) /
            (b.time.getD (k + 1) 0 - b.time.getD k 0) ∧
      (query_time - b.time.getD k 0) /
            (b.time.getD (k + 1) 0 - b.time.getD k 0) < 1) := by
  have hne : b.time ≠ [] := by
    intro h
    rw [h] at hk
    simp at hk
  have hmono' := strict_getD_le hmono
  have hnodup : ∀ i j, i < b.time.length → j < b.time.length →
      b.time.getD i 0 = b.time.getD j 0 → i = j := by
    intro i j hi hj hij
    rcases Nat.lt_trichotomy i j with h | h | h
    · exact absurd hij (ne_of_lt (hmono j hj i h))
    · exact h
    · exact absurd hij.symm (ne_of_lt (hmono i hi j h))
  constructor
  · constructor
    · obtain ⟨i, hi, hcase⟩ := interpolate_in_range b (b.time.getD k 0) index
        hmono hne (hmono' k (by omega) 0 (Nat.zero_le k))
        (hmono' (b.time.length - 1) (by omega) k (by omega))
      rcases hcase with ⟨hieq, hv⟩ | ⟨hilt, h1, h2, -⟩
      · have : i = k := hnodup i k hi (by omega) hieq
        subst this
        exact hv
      · exfalso
        rcases Nat.lt_or_ge k (i + 1) with h | h
        · have : k ≤ i := by omega
          have := hmono' i (by omega) k this
          linarith
        · have := hmono' k (by omega) (i + 1) h
          linarith
    · obtain ⟨i, hi, hcase⟩ := interpolate_in_range b (b.time.getD (k + 1) 0) index
        hmono hne (hmono' (k + 1) (by omega) 0 (Nat.zero_le _))
        (hmono' (b.time.length - 1) (by omega) (k + 1) (by omega))
      rcases hcase with ⟨hieq, hv⟩ | ⟨hilt, h1, h2, -⟩
      · have : i = k + 1 := hnodup i (k + 1) hi (by omega) hieq
        subst this
        exact hv
      · exfalso
        rcases Nat.lt_or_ge (k + 1) (i + 1) with h | h
        · have := hmono' i (by omega) (k + 1) (by omega)
          linarith
        · have := hmono' (k + 1) (by omega) (i + 1) h
          linarith
  · intro query_time hq1 hq2
    obtain ⟨i, hi, hcase⟩ := interpolate_in_range b query_time index hmono hne
      (by
        have := hmono' k (by omega) 0 (Nat.zero_le k)
        linarith)
      (by
        have := hmono' (b.time.length - 1) (by omega) (k + 1) (by omega)
        linarith)
    have hik : ∀ i', i' < b.time.length → b.time.getD i' 0 < query_time →
        query_time < b.time.getD (i' + 1) 0 → i' + 1 < b.time.length → i' = k := by
      intro i' hi' hlt hgt hi1
      rcases Nat.lt_trichotomy i' k with h | h | h
      · exfalso
        have := hmono' k (by omega) (i' + 1) (by omega)
        linarith
      · exact h
      · exfalso
        have := hmono' i' hi' (k + 1) (by omega)
        linarith
    rcases hcase with ⟨hieq, -⟩ | ⟨hilt, h1, h2, hv⟩
    · exfalso
      rcases Nat.lt_or_ge i (k + 1) with h | h
      · have := hmono' k (by omega) i (by omega)
        linarith
      · have := hmono' i hi (k + 1) h
        linarith
    · have : i = k := hik i hi h1 h2 hilt
      subst this
      have hden : (0:ℚ) < b.time.getD (i + 1) 0 - b.time.getD i 0 := by linarith
      refine ⟨?_, div_pos (by linarith) hden, (div_lt_one hden).mpr (by linarith)⟩
      rw [hv]
      rfl

/-- Witness for `interpolate_exact_and_convex`: the concrete two-fix
track with times 100 and 200, bracketing pair at position 0, cursor 0. -/
theorem interpolate_exact_and_convex_witness :
    (∀ j, j < (BDeck.mk [100, 200] [10, 20] [1, 2] [5, 6]).time.length →
      ∀ i, i < j →
        (BDeck.mk [100, 200] [10, 20] [1, 2] [5, 6]).time.getD i 0 <
        (BDeck.mk [100, 200] [10, 20] [1, 2] [5, 6]).time.getD j 0) ∧
    (0 + 1 < (BDeck.mk [100, 200] [10, 20] [1, 2] [5, 6]).time.length) ∧
    ((BDeck.mk [100, 200] [10, 20] [1, 2] [5, 6]).interpolate_with_index
        ((BDeck.mk [100, 200] [10, 20] [1, 2] [5, 6]).time.getD 0 0) 0).1 =
      some ((BDeck.mk [100, 200] [10, 20] [1, 2] [5, 6]).latitude.getD 0 0,
            (BDeck.mk [100, 200] [10, 20] [1, 2] [5, 6]).longitude.getD 0 0,
            (BDeck.mk [100, 200] [10, 20] [1, 2] [5, 6]).intensity.getD 0 0) :=
  ⟨by decide, by decide,
   ((interpolate_exact_and_convex (BDeck.mk [100, 200] [10, 20] [1, 2] [5, 6])
     0 0 (by decide) (by decide)).1).1⟩

/-! ## Pass search (`src/orbital.rs`)

The orbit-kinematics capability (`predict_rs`/`sgp4`) and the geodesic
distance (`geographiclib_rs`) are external collaborators; the embedding
takes them as an abstract `Kinematics` record of pure functions, exactly
the shape in which `src/orbital.rs` consumes them (`observe_orbit`,
`step_pass` backwards, `refine_obs_elevation` in AOS/LOS mode,
`f64::to_degrees`, `geod.inverse`).  The `Option` results model the
`.unwrap()` calls: `none` stands for a panic of the external call.
Machine angles and times are ℚ; the loop bounds of the source
(`iteration < 10000` in `find_max_elevation`, forward progress of at
least one fine step per iteration in the scan loops) appear as explicit
fuel, so a `some` result of a scan certifies that the run completed
through the source's own exit conditions. -/

structure PredictPosition where
  latitude : ℚ
  longitude : ℚ
deriving DecidableEq

structure PredictObservation where
  time : ℚ
  elevation : ℚ
  elevation_rate : ℚ
deriving DecidableEq

structure Kinematics where
  observe_orbit : ℚ → PredictPosition × PredictObservation
  to_degrees : ℚ → ℚ
  step_pass_back : ℚ → Option ℚ
  refine_aos : ℚ → Option (PredictPosition × PredictObservation)
  refine_los : ℚ → Option (PredictPosition × PredictObservation)
  geodesic_distance : ℚ → ℚ → ℚ → ℚ → ℚ

def elevation_derivative (kin : Kinematics) (time : ℚ) : ℚ :=
  (kin.observe_orbit time).2.elevation_rate

/-- The bisection loop of `find_max_elevation`, with
`fuel = 10000 - iteration` (the loop guard `iteration < 10000` is exactly
`fuel ≠ 0`).  Arguments mirror the mutable state of the source loop:
bracket, bracket derivatives, current midpoint candidate, and the orbit
and observation at the candidate. -/
def find_max_elevation_go (kin : Kinematics) :
    ℕ → ℚ → ℚ → ℚ → ℚ → ℚ → PredictPosition → PredictObservation →
      ℚ × ℚ × PredictPosition
  | 0, _, _, _, _, max_ele_time_candidate, orbit, obs =>
    (kin.to_degrees obs.elevation, max_ele_time_candidate, orbit)
  | fuel + 1, lower_time, upper_time, lower_deriv, upper_deriv,
      max_ele_time_candidate, orbit, obs =>
    if fabs (lower_time - upper_time) > 1 / 1000000 then
      let candidate_deriv := obs.elevation_rate
      if candidate_deriv * lower_deriv < 0 then
        let cand2 := (max_ele_time_candidate + lower_time) / 2
        let next := kin.observe_orbit cand2
        find_max_elevation_go kin fuel lower_time max_ele_time_candidate
          lower_deriv candidate_deriv cand2 next.1 next.2
      else if candidate_deriv * upper_deriv < 0 then
        let cand2 := (upper_time + max_ele_time_candidate) / 2
        let next := kin.observe_orbit cand2
        find_max_elevation_go kin fuel max_ele_time_candidate upper_time
          candidate_deriv upper_deriv cand2 next.1 next.2
      else (kin.to_degrees obs.elevation, max_ele_time_candidate, orbit)
    else (kin.to_degrees obs.elevation, max_ele_time_candidate, orbit)

/-- `find_max_elevation` from `src/orbital.rs`: returns
`(max elevation in degrees, time of max elevation, satellite position)`. -/
def find_max_elevation (kin : Kinematics) (lower_time upper_time : ℚ) :
    ℚ × ℚ × PredictPosition :=
  let lower_deriv := elevation_derivative kin lower_time
  let upper_deriv := elevation_derivative kin upper_time
  let max_ele_time_candidate := (upper_time + lower_time) / 2
  let start := kin.observe_orbit max_ele_time_candidate
  find_max_elevation_go kin 10000 lower_time upper_time lower_deriv
    upper_deriv max_ele_time_candidate start.1 start.2

structure Pass where
  aos : Option PredictObservation
  los : Option PredictObservation
  satellite_position_at_aos : Option PredictPosition
  satellite_position_at_los : Option PredictPosition
  max_elevation : Option ℚ
deriving DecidableEq

structure Passes where
  passes : List Pass
deriving DecidableEq

/-- The guard on `src/orbital.rs` line 82 deciding the initial backward
walk of `build_passes`: `satellite_el.abs() >= min_elev_deg`. -/
def backward_walk_guard (satellite_el min_elev_deg : ℚ) : Bool :=
  fabs satellite_el ≥ min_elev_deg

/-- The inner AOS loop of `build_passes`.  Result: `none` if the scan
did not complete (fuel exhausted, or `refine_obs_elevation` panicked);
`some none` for the `break 'outer` exit (`currtime >= stop_utc`);
`some (some (t, satpos, observation))` when a rise was detected and
refined, with `t` the scan time after the detection (the source steps
back one fine step for refinement and then restores `currtime`). -/
def aos_scan (kin : Kinematics) (min_elev_deg stop_utc : ℚ) :
    ℕ → ℚ → Option (Option (ℚ × PredictPosition × PredictObservation))
  | 0, _ => none
  | fuel + 1, currtime =>
    if currtime ≥ stop_utc then some none
    else
      let obs := (kin.observe_orbit currtime).2
      let satellite_el := kin.to_degrees obs.elevation
      if satellite_el ≥ min_elev_deg ∧ obs.elevation_rate > 0 then
        match kin.refine_aos (currtime - 1) with
        | none => none
        | some (satpos, observation) => some (some (currtime, satpos, observation))
      else
        let step := if fabs (satellite_el - min_elev_deg) > 5 then (10:ℚ) else 1
        aos_scan kin min_elev_deg stop_utc fuel (currtime + step)

/-- The inner LOS loop of `build_passes`.  Result: `none` if the scan did
not complete; `some (t, some (satpos, observation))` when a set was
detected and refined; `some (t, none)` when the stop time was exceeded
before any set was seen (the loop's trailing `if currtime >= stop_utc`
break) — in that case the source still pushes the one-sided pass. -/
def los_scan (kin : Kinematics) (min_elev_deg stop_utc : ℚ) :
    ℕ → ℚ → Option (ℚ × Option (PredictPosition × PredictObservation))
  | 0, _ => none
  | fuel + 1, currtime =>
    let obs := (kin.observe_orbit currtime).2
    let satellite_el := kin.to_degrees obs.elevation
    if satellite_el ≤ min_elev_deg ∧ obs.elevation_rate < 0 then
      match kin.refine_los (currtime - 1) with
      | none => none
      | some (satpos, observation) => some (currtime, some (satpos, observation))
    else
      let step := if fabs (satellite_el - min_elev_deg) > 5 then (10:ℚ) else 1
      if currtime + step ≥ stop_utc then some (currtime + step, none)
      else los_scan kin min_elev_deg stop_utc fuel (currtime + step)

/-- The `'outer` loop of `build_passes`: find a rise, then scan for the
set, push the pass (unconditionally — the `aos.is_some && los.is_some`
check of the source guards only the optional max-elevation computation),
and continue until the rise scan hits the horizon. -/
def build_passes_outer (kin : Kinematics) (min_elev_deg stop_utc : ℚ)
    (include_max_elevation : Bool) :
    ℕ → ℚ → List Pass → Option (List Pass)
  | 0, _, _ => none
  | fuel + 1, currtime, acc =>
    match aos_scan kin min_elev_deg stop_utc (fuel + 1) currtime with
    | none => none
    | some none => some acc.reverse
    | some (some (t1, aos_pos, aos_obs)) =>
      match los_scan kin min_elev_deg stop_utc (fuel + 1) t1 with
      | none => none
      | some (t2, los_res) =>
        let pass : Pass :=
          { aos := some aos_obs
            los := los_res.map Prod.snd
            satellite_position_at_aos := some aos_pos
            satellite_position_at_los := los_res.map Prod.fst
            max_elevation :=
              match los_res, include_max_elevation with
              | some (_, los_obs), true =>
                some (find_max_elevation kin aos_obs.time los_obs.time).1
              | _, _ => none }
        build_passes_outer kin min_elev_deg stop_utc include_max_elevation
          fuel t2 (pass :: acc)

/-- `build_passes` from `src/orbital.rs`.  A `some` result certifies a
run that completed through the source's own exit conditions (no fuel
exhaustion, no panic of an external refinement call). -/
def build_passes (kin : Kinematics) (min_elev_deg start_utc stop_utc : ℚ)
    (include_max_elevation : Bool) (fuel : ℕ) : Option Passes :=
  let obs := (kin.observe_orbit start_utc).2
  let satellite_el := kin.to_degrees obs.elevation
  if backward_walk_guard satellite_el min_elev_deg then
    match kin.step_pass_back start_utc with
    | none => none
    | some real_aos =>
      (build_passes_outer kin min_elev_deg stop_utc include_max_elevation
        fuel (real_aos - 1) []).map Passes.mk
  else
    (build_passes_outer kin min_elev_deg stop_utc include_max_elevation
      fuel start_utc []).map Passes.mk

structure SatPassEvent where
  cpa_time : ℚ
  cpa_distance : ℚ
  elevation : ℚ
deriving DecidableEq

structure TCSatPassEvent where
  cpa_time : ℚ
  cpa_distance : ℚ
  sat_zenith : ℚ
  intensity : ℚ
deriving DecidableEq

/-- The event built by `Orbital::get_passes` for one pass whose AOS and
LOS are both present. -/
def event_of_pass (kin : Kinematics) (latitude longitude : ℚ)
    (aos los : PredictObservation) : SatPassEvent :=
  let fme := find_max_elevation kin aos.time los.time
  { cpa_time := fme.2.1
    cpa_distance := kin.geodesic_distance latitude longitude
      (kin.to_degrees fme.2.2.latitude) (kin.to_degrees fme.2.2.longitude)
    elevation := fme.1 }

/-- The event loop of `Orbital::get_passes`: passes missing AOS or LOS
are skipped (`continue`), the rest produce one event each. -/
def get_passes_events (kin : Kinematics) (latitude longitude : ℚ)
    (passes : List Pass) : List SatPassEvent :=
  passes.filterMap fun pass =>
    match pass.aos, pass.los with
    | some aos, some los => some (event_of_pass kin latitude longitude aos los)
    | _, _ => none

/-- `Orbital::get_passes`: observer with altitude 0 and
`min_elevation = 0.0`, scan over `[start_utc, start_utc + interval_sec]`,
`include_max_elevation = false`, then the event loop. -/
def get_passes (kin : Kinematics) (start_utc interval_sec longitude latitude : ℚ)
    (fuel : ℕ) : Option (List SatPassEvent) :=
  (build_passes kin 0 start_utc (start_utc + interval_sec) false fuel).map
    fun ps => get_passes_events kin latitude longitude ps.passes

/-- Exit form of the bisection loop: whenever the while-condition fails
(tolerance reached or iteration budget spent) the loop returns the
observation at the current midpoint candidate unchanged. -/
theorem find_max_elevation_go_exit (kin : Kinematics) (fuel : ℕ)
    (lower_time upper_time lower_deriv upper_deriv cand : ℚ)
    (orbit : PredictPosition) (obs : PredictObservation)
    (h : ¬(fabs (lower_time - upper_time) > 1 / 1000000) ∨ fuel = 0) :
    find_max_elevation_go kin fuel lower_time upper_time lower_deriv
        upper_deriv cand orbit obs =
      (kin.to_degrees obs.elevation, cand, orbit) := by
  cases fuel with
  | zero => simp [find_max_elevation_go]
  | succ fuel =>
    rcases h with h | h
    · simp only [find_max_elevation_go]
      rw [if_neg h]
    · exact absurd h (Nat.succ_ne_zero fuel)

/-- Loop invariant of `find_max_elevation_go`: starting from any bracket
with the candidate at its midpoint and the observation taken there, the
loop ends on some final bracket, returning the observation triple at that
bracket's midpoint, and the exit is due to tolerance, fuel exhaustion, or
an undetectable sign change at the midpoint. -/
theorem find_max_elevation_go_spec (kin : Kinematics) :
    ∀ fuel lo hi ld ud,
      ∃ lo2 hi2 ld2 ud2 fuel2, fuel2 ≤ fuel ∧
        find_max_elevation_go kin fuel lo hi ld ud ((hi + lo) / 2)
            (kin.observe_orbit ((hi + lo) / 2)).1
            (kin.observe_orbit ((hi + lo) / 2)).2 =
          (kin.to_degrees ((kin.observe_orbit ((hi2 + lo2) / 2)).2.elevation),
           (hi2 + lo2) / 2,
           (kin.observe_orbit ((hi2 + lo2) / 2)).1) ∧
        (fabs (lo2 - hi2) ≤ 1 / 1000000 ∨ fuel2 = 0 ∨
          (¬((kin.observe_orbit ((hi2 + lo2) / 2)).2.elevation_rate * ld2 < 0) ∧
           ¬((kin.observe_orbit ((hi2 + lo2) / 2)).2.elevation_rate * ud2 < 0))) := by
  intro fuel
  induction fuel with
  | zero =>
    intro lo hi ld ud
    exact ⟨lo, hi, ld, ud, 0, le_refl _,
      find_max_elevation_go_exit kin 0 lo hi ld ud _ _ _ (Or.inr rfl),
      Or.inr (Or.inl rfl)⟩
  | succ fuel ih =>
    intro lo hi ld ud
    by_cases htol : fabs (lo - hi) > 1 / 1000000
    · set cd := (kin.observe_orbit ((hi + lo) / 2)).2.elevation_rate with hcd
      by_cases hc1 : cd * ld < 0
      · have hstep : find_max_elevation_go kin (fuel + 1) lo hi ld ud ((hi + lo) / 2)
            (kin.observe_orbit ((hi + lo) / 2)).1
            (kin.observe_orbit ((hi + lo) / 2)).2 =
            find_max_elevation_go kin fuel lo ((hi + lo) / 2) ld cd
              (((hi + lo) / 2 + lo) / 2)
              (kin.observe_orbit (((hi + lo) / 2 + lo) / 2)).1
              (kin.observe_orbit (((hi + lo) / 2 + lo) / 2)).2 := by
          simp only [find_max_elevation_go]
          rw [if_pos htol, if_pos hc1]
        obtain ⟨lo2, hi2, ld2, ud2, fuel2, hle, heq, hreason⟩ := ih lo ((hi + lo) / 2) ld cd
        exact ⟨lo2, hi2, ld2, ud2, fuel2, by omega, by rw [hstep]; exact heq, hreason⟩
      · by_cases hc2 : cd * ud < 0
        · have hstep : find_max_elevation_go kin (fuel + 1) lo hi ld ud ((hi + lo) / 2)
              (kin.observe_orbit ((hi + lo) / 2)).1
              (kin.observe_orbit ((hi + lo) / 2)).2 =
              find_max_elevation_go kin fuel ((hi + lo) / 2) hi cd ud
                ((hi + (hi + lo) / 2) / 2)
                (kin.observe_orbit ((hi + (hi + lo) / 2) / 2)).1
                (kin.observe_orbit ((hi + (hi + lo) / 2) / 2)).2 := by
            simp only [find_max_elevation_go]
            rw [if_pos htol, if_neg hc1, if_pos hc2]
          obtain ⟨lo2, hi2, ld2, ud2, fuel2, hle, heq, hreason⟩ := ih ((hi + lo) / 2) hi cd ud
          exact ⟨lo2, hi2, ld2, ud2, fuel2, by omega, by rw [hstep]; exact heq, hreason⟩
        · refine ⟨lo, hi, ld, ud, fuel + 1, le_refl _, ?_, Or.inr (Or.inr ⟨hc1, hc2⟩)⟩
          simp only [find_max_elevation_go]
          rw [if_pos htol, if_neg hc1, if_neg hc2]
    · exact ⟨lo, hi, ld, ud, fuel + 1, le_refl _,
        find_max_elevation_go_exit kin (fuel + 1) lo hi ld ud _ _ _ (Or.inl htol),
        Or.inl (not_lt.mp htol)⟩

/-- C6.  The max-elevation bisection always terminates (the embedding is
a total function whose fuel is exactly the source's iteration counter):
for every kinematics and input bracket there is a final bracket and an
iteration count of at most 10,000 such that the function returns the
midpoint estimate of that bracket — the time of maximum elevation, the
elevation there converted to degrees, and the satellite position there —
and the loop exited because the bracket width was within the 1e-6-second
tolerance, or 10,000 iterations elapsed, or no sign change was detectable
at the midpoint. -/
theorem find_max_elevation_terminates (kin : Kinematics)
    (lower_time upper_time : ℚ) :
    ∃ lo hi ld ud iterations, iterations ≤ 10000 ∧
      find_max_elevation kin lower_time upper_time =
        (kin.to_degrees ((kin.observe_orbit ((hi + lo) / 2)).2.elevation),
         (hi + lo) / 2, (kin.observe_orbit ((hi + lo) / 2)).1) ∧
      (fabs (lo - hi) ≤ 1 / 1000000 ∨ iterations = 10000 ∨
        (¬((kin.observe_orbit ((hi + lo) / 2)).2.elevation_rate * ld < 0) ∧
         ¬((kin.observe_orbit ((hi + lo) / 2)).2.elevation_rate * ud < 0))) := by
  obtain ⟨lo2, hi2, ld2, ud2, fuel2, hle, heq, hreason⟩ :=
    find_max_elevation_go_spec kin 10000 lower_time upper_time
      (elevation_derivative kin lower_time) (elevation_derivative kin upper_time)
  refine ⟨lo2, hi2, ld2, ud2, 10000 - fuel2, by omega, heq, ?_⟩
  rcases hreason with h | h | h
  · exact Or.inl h
  · exact Or.inr (Or.inl (by omega))
  · exact Or.inr (Or.inr h)

/-- C7.  One step of the bisection, while the tolerance and iteration
guards still hold: if the midpoint's elevation-rate has opposite sign to
the lower bound's rate, the upper bound is narrowed to the midpoint; else
if opposite to the upper bound's rate, the lower bound is narrowed; else
the loop stops and returns the current midpoint estimate — through the
same plain `(elevation, time, position)` return shape as a converged run,
with no signal distinguishing this degenerate exit. -/
theorem bisection_step (kin : Kinematics) (fuel : ℕ)
    (lower_time upper_time lower_deriv upper_deriv
      max_ele_time_candidate : ℚ)
    (orbit : PredictPosition) (obs : PredictObservation)
    (htol : fabs (lower_time - upper_time) > 1 / 1000000) :
    (obs.elevation_rate * lower_deriv < 0 →
      find_max_elevation_go kin (fuel + 1) lower_time upper_time lower_deriv
          upper_deriv max_ele_time_candidate orbit obs =
        find_max_elevation_go kin fuel lower_time max_ele_time_candidate
          lower_deriv obs.elevation_rate
          ((max_ele_time_candidate + lower_time) / 2)
          (kin.observe_orbit ((max_ele_time_candidate + lower_time) / 2)).1
          (kin.observe_orbit ((max_ele_time_candidate + lower_time) / 2)).2) ∧
    (¬(obs.elevation_rate * lower_deriv < 0) →
      obs.elevation_rate * upper_deriv < 0 →
      find_max_elevation_go kin (fuel + 1) lower_time upper_time lower_deriv
          upper_deriv max_ele_time_candidate orbit obs =
        find_max_elevation_go kin fuel max_ele_time_candidate upper_time
          obs.elevation_rate upper_deriv
          ((upper_time + max_ele_time_candidate) / 2)
          (kin.observe_orbit ((upper_time + max_ele_time_candidate) / 2)).1
          (kin.observe_orbit ((upper_time + max_ele_time_candidate) / 2)).2) ∧
    (¬(obs.elevation_rate * lower_deriv < 0) →
      ¬(obs.elevation_rate * upper_deriv < 0) →
      find_max_elevation_go kin (fuel + 1) lower_time upper_time lower_deriv
          upper_deriv max_ele_time_candidate orbit obs =
        (kin.to_degrees obs.elevation, max_ele_time_candidate, orbit)) := by
  refine ⟨?_, ?_, ?_⟩
  · intro h1
    simp only [find_max_elevation_go]
    rw [if_pos htol, if_pos h1]
  · intro h1 h2
    simp only [find_max_elevation_go]
    rw [if_pos htol, if_neg h1, if_pos h2]
  · intro h1 h2
    simp only [find_max_elevation_go]
    rw [if_pos htol, if_neg h1, if_neg h2]

/-- A concrete kinematics instance: the satellite is permanently above
the horizon with positive elevation-rate (elevation 1, rate 1 at every
time); the refinement calls echo the query time back.  Realises the
situation of a pass still in progress when the scan horizon is hit. -/
def kinRiseOnly : Kinematics :=
  { observe_orbit := fun t => (⟨0, 0⟩, ⟨t, 1, 1⟩)
    to_degrees := id
    step_pass_back := fun _ => some 0
    refine_aos := fun t => some (⟨0, 0⟩, ⟨t, 0, 0⟩)
    refine_los := fun t => some (⟨0, 0⟩, ⟨t, 0, 0⟩)
    geodesic_distance := fun _ _ _ _ => 0 }

/-- Witness for `bisection_step`: a concrete state with tolerance not yet
reached and no sign change at the midpoint (all rates are 1), hitting the
degenerate-exit branch. -/
theorem bisection_step_witness :
    fabs ((0:ℚ) - 1) > 1 / 1000000 ∧
    find_max_elevation_go kinRiseOnly (0 + 1) 0 1 1 1 (1/2) ⟨0, 0⟩ ⟨1/2, 1, 1⟩ =
      (kinRiseOnly.to_degrees 1, 1/2, ⟨0, 0⟩) :=
  ⟨by norm_num [fabs],
   (bisection_step kinRiseOnly 0 0 1 1 1 (1/2) ⟨0, 0⟩ ⟨1/2, 1, 1⟩
      (by norm_num [fabs])).2.2 (by norm_num) (by norm_num)⟩

set_option maxRecDepth 2000 in
/-- C1 counterexample.  With `kinRiseOnly` over the scan interval
`[0, 5]` (minimum elevation 0, the value `get_passes` always uses),
`build_passes` completes normally and its output consists of exactly one
pass that has a rise observation but **no** set observation: the set scan
ran into `stop_utc` and the source pushes the pass unconditionally.  This
refutes "no one-sided window appears in the output of the window
detection". -/
theorem build_passes_one_sided_counterexample :
    (build_passes kinRiseOnly 0 0 5 false 20).map
        (fun ps => ps.passes.map (fun p => (p.aos.isSome, p.los.isSome)))
      = some [(true, false)] := by
  norm_num [build_passes, build_passes_outer, aos_scan, los_scan, kinRiseOnly,
    backward_walk_guard, fabs]

/-- C1 (amended).  `build_passes` can emit a trailing one-sided window
(rise without set) when the scan horizon interrupts the set scan — see
`build_passes_one_sided_counterexample` — but `Orbital::get_passes`
filters such windows out: every `SatPassEvent` it returns derives from a
pass of the `build_passes` output whose rise and set observations are
both present. -/
theorem get_passes_two_sided (kin : Kinematics)
    (start_utc interval_sec longitude latitude : ℚ) (fuel : ℕ)
    (events : List SatPassEvent)
    (h : get_passes kin start_utc interval_sec longitude latitude fuel
          = some events) :
    ∀ e ∈ events, ∃ ps p aos los,
      build_passes kin 0 start_utc (start_utc + interval_sec) false fuel
          = some ps ∧
      p ∈ ps.passes ∧ p.aos = some aos ∧ p.los = some los ∧
      e = event_of_pass kin latitude longitude aos los := by
  intro e he
  unfold get_passes at h
  rcases Option.map_eq_some'.mp h with ⟨ps, hps, hev⟩
  rw [← hev] at he
  unfold get_passes_events at he
  rcases List.mem_filterMap.mp he with ⟨p, hp, hmatch⟩
  cases haos : p.aos with
  | none => rw [haos] at hmatch; simp at hmatch
  | some aos =>
    cases hlos : p.los with
    | none => rw [haos, hlos] at hmatch; simp at hmatch
    | some los =>
      rw [haos, hlos] at hmatch
      simp only [Option.some.injEq] at hmatch
      exact ⟨ps, p, aos, los, hps, hp, haos, hlos, hmatch.symm⟩

/-- A concrete kinematics instance with one complete pass: the satellite
is above the horizon and rising before time 2 and below with negative
rate from then on; both refinement calls report the crossing at time 0. -/
def kinOnePass : Kinematics :=
  { observe_orbit := fun t =>
      if t < 2 then (⟨0, 0⟩, ⟨t, 1, 1⟩) else (⟨0, 0⟩, ⟨t, -1, -1⟩)
    to_degrees := id
    step_pass_back := fun _ => some 0
    refine_aos := fun _ => some (⟨0, 0⟩, ⟨0, 0, 0⟩)
    refine_los := fun _ => some (⟨0, 0⟩, ⟨0, 0, 0⟩)
    geodesic_distance := fun _ _ _ _ => 0 }

/-- Degenerate-bracket form of the bisection: on a width-zero bracket the
tolerance check fails immediately and the observation at the midpoint is
returned. -/
theorem find_max_elevation_self (kin : Kinematics) (t : ℚ) :
    find_max_elevation kin t t =
      (kin.to_degrees ((kin.observe_orbit ((t + t) / 2)).2.elevation),
       (t + t) / 2, (kin.observe_orbit ((t + t) / 2)).1) := by
  unfold find_max_elevation
  exact find_max_elevation_go_exit kin 10000 t t _ _ _ _ _
    (Or.inl (by norm_num [fabs]))

set_option maxRecDepth 4000 in
/-- Witness for `get_passes_two_sided`: a complete concrete run of
`get_passes` over `kinOnePass` producing exactly one event, together with
the theorem's conclusion for it. -/
theorem get_passes_two_sided_witness :
    get_passes kinOnePass 0 6 0 0 40 = some [⟨0, 0, 1⟩] ∧
    (∀ e ∈ [(⟨0, 0, 1⟩ : SatPassEvent)], ∃ ps p aos los,
      build_passes kinOnePass 0 0 (0 + 6) false 40 = some ps ∧
      p ∈ ps.passes ∧ p.aos = some aos ∧ p.los = some los ∧
      e = event_of_pass kinOnePass 0 0 aos los) := by
  have hrun : get_passes kinOnePass 0 6 0 0 40 = some [⟨0, 0, 1⟩] := by
    norm_num [get_passes, build_passes, build_passes_outer, aos_scan, los_scan,
      kinOnePass, backward_walk_guard, fabs, get_passes_events, event_of_pass,
      find_max_elevation_self, List.filterMap_cons, List.filterMap_nil]
  exact ⟨hrun, get_passes_two_sided kinOnePass 0 6 0 0 40 [⟨0, 0, 1⟩] hrun⟩

/-- A concrete kinematics instance whose satellite sits at elevation −30°
(below the 0° threshold) with zero elevation-rate; the backward
`step_pass` refinement is modelled as a panic (`none`), making any
invocation of the backward walk observable in the result. -/
def kinBelow : Kinematics :=
  { observe_orbit := fun t => (⟨0, 0⟩, ⟨t, -30, 0⟩)
    to_degrees := id
    step_pass_back := fun _ => none
    refine_aos := fun _ => none
    refine_los := fun _ => none
    geodesic_distance := fun _ _ _ _ => 0 }

/-- C8 (code bug).  The source guards the initial backward walk with
`satellite_el.abs() >= min_elev_deg` (absolute value!), so at the
`min_elevation = 0` used by `get_passes` the guard holds for **every**
elevation; an observer that does not see the satellite (elevation −30°)
still triggers the backward walk — `build_passes` invokes the backward
`step_pass` refinement (modelled as a panic, hence `none`), although per
spec the scan should simply proceed forward from `start_time`, which
completes normally with no passes (last conjunct). -/
theorem backward_walk_on_below_threshold :
    backward_walk_guard (-30) 0 = true ∧ ((-30:ℚ) < 0) ∧
    backward_walk_guard (-100) 0 = true ∧
    build_passes kinBelow 0 0 5 false 50 = none ∧
    (build_passes_outer kinBelow 0 5 false 50 0 []).map Passes.mk
      = some (Passes.mk []) := by
  refine ⟨by norm_num [backward_walk_guard, fabs], by norm_num,
    by norm_num [backward_walk_guard, fabs], ?_, ?_⟩
  · norm_num [build_passes, kinBelow, backward_walk_guard, fabs]
  · norm_num [build_passes_outer, aos_scan, kinBelow, fabs]

/-! ## Element-store loading (`src/tle.rs`, C9)

`TLEManager::from_file` pairs up the input lines, keeps only pairs whose
first line has at least 32 bytes, extracts the epoch field
`line1[18..32]`, converts it via `tle_epoch_to_timestamp` (whose
`.unwrap()` calls panic on malformed input — modelled as `none`), and
finally sorts by epoch.  Strings are treated as ASCII (TLE files are),
so byte slicing is character slicing.  The number parsers model the
plain decimal forms of Rust's `i32`/`f64` parsers, the only forms an
epoch field can take; what matters for the claims is that non-numeric
input fails. -/

def digitVal (c : Char) : Option ℕ :=
  if c.isDigit then some (c.toNat - 48) else none

def charsToNat (s : List Char) : ℕ :=
  s.foldl (fun acc c => acc * 10 + (c.toNat - 48)) 0

/-- `str::parse::<u32>`-style digit run: nonempty, digits only. -/
def parseNatRust (s : List Char) : Option ℕ :=
  if s ≠ [] ∧ s.all Char.isDigit then some (charsToNat s) else none

/-- `str::parse::<i32>` on the two-character year field. -/
def parseIntRust (s : List Char) : Option ℤ :=
  match s with
  | '+' :: rest => (parseNatRust rest).map (fun n => (n : ℤ))
  | '-' :: rest => (parseNatRust rest).map (fun n => -(n : ℤ))
  | _ => (parseNatRust s).map (fun n => (n : ℤ))

/-- `str::parse::<f64>` on the fractional day-of-year field: an optional
integer part, an optional decimal point and fraction, at least one digit
overall. -/
def parseF64Rust (s : List Char) : Option ℚ :=
  match s with
  | [] => none
  | _ =>
    let intPart := s.takeWhile (fun c => c ≠ '.')
    let rest := s.dropWhile (fun c => c ≠ '.')
    match rest with
    | [] =>
      if intPart.all Char.isDigit then some ((charsToNat intPart : ℕ) : ℚ)
      else none
    | _ :: fracPart =>
      if intPart.all Char.isDigit ∧ fracPart.all Char.isDigit ∧
          (intPart ≠ [] ∨ fracPart ≠ []) then
        some (((charsToNat intPart : ℕ) : ℚ) +
          ((charsToNat fracPart : ℕ) : ℚ) / (10 ^ fracPart.length))
      else none

def isLeapYear (y : ℤ) : Bool :=
  y % 4 = 0 ∧ (y % 100 ≠ 0 ∨ y % 400 = 0)

def daysInYear (y : ℤ) : ℕ := if isLeapYear y then 366 else 365

/-- Leap years in `[1, y)`. -/
def leapsBefore (y : ℤ) : ℤ := (y - 1) / 4 - (y - 1) / 100 + (y - 1) / 400

/-- Days from 1970-01-01 to `y`-01-01 (chrono's proleptic Gregorian
calendar, Unix epoch base). -/
def daysToYear (y : ℤ) : ℤ :=
  365 * (y - 1970) + (leapsBefore y - leapsBefore 1970)

/-- `tle_epoch_to_timestamp` from `src/tle.rs`: two-digit year with pivot
57, fractional day of year; `NaiveDate::from_yo_opt(..).unwrap()` panics
(`none`) when the ordinal day is outside `1 ..= daysInYear` (the `as u32`
cast saturates negatives to 0); the fractional day is converted to whole
seconds by rounding (the rounded value is nonnegative here, where
`round` is half-up, agreeing with `f64::round`).  The result is the Unix
timestamp in seconds. -/
def tle_epoch_to_timestamp (tle_epoch : List Char) : Option ℚ :=
  match parseIntRust (tle_epoch.take 2) with
  | none => none
  | some year =>
    let year_full : ℤ := if year < 57 then 2000 + year else 1900 + year
    match parseF64Rust (tle_epoch.drop 2) with
    | none => none
    | some day_of_year =>
      let ordSat : ℕ := (⌊day_of_year⌋).toNat
      if 1 ≤ ordSat ∧ ordSat ≤ daysInYear year_full then
        let seconds_in_day : ℕ := (round ((day_of_year - ⌊day_of_year⌋) * 86400)).toNat
        some ((((daysToYear year_full + ((ordSat : ℤ) - 1)) * 86400 +
          (seconds_in_day : ℤ)) : ℤ) : ℚ)
      else none

/-- The line-pairing loop of `TLEManager::from_file` (I/O aside): record
pairs whose first line is shorter than 32 bytes are skipped without
error; in longer lines a malformed epoch field panics (`none`); a
trailing unpaired line is dropped by the `while let` pattern. -/
def tles_from_lines : List String → Option (List TLE)
  | line1 :: line2 :: rest =>
    if line1.length ≥ 32 then
      match tle_epoch_to_timestamp ((line1.toList.drop 18).take 14) with
      | none => none
      | some ts =>
        (tles_from_lines rest).map (fun tles => ⟨line1, line2, ts⟩ :: tles)
    else tles_from_lines rest
  | _ => some []

/-- `TLEManager::from_file` minus the file I/O: pair the lines, then sort
by epoch timestamp (`sort_by` with `partial_cmp(..).unwrap_or(Equal)`,
which on rationals is the total order; Rust's sort is stable, as is
`mergeSort`). -/
def tle_manager_from_lines (lines : List String) : Option TLEManager :=
  (tles_from_lines lines).map (fun tles =>
    ⟨tles.mergeSort (fun a b => a.epoch_timestamp ≤ b.epoch_timestamp)⟩)

/-- C9 counterexample.  A record whose first line is shorter than 32
characters — its epoch field is absent — is silently skipped: loading
succeeds with an empty store instead of failing with a parse error.  (By
contrast, a 32-character first line whose epoch field is malformed does
abort the load, second conjunct.) -/
theorem from_file_absent_epoch_counterexample :
    tle_manager_from_lines ["short", "x"] = some ⟨[]⟩ ∧
    tle_manager_from_lines ["AAAAAAAAAAAAAAAAAAAAAAAAAAAAAAAA", "x"] = none := by
  constructor
  · have h1 : tles_from_lines ["short", "x"] = some [] := by decide
    simp [tle_manager_from_lines, h1, List.mergeSort_nil]
  · decide

/-- C9 (amended).  Loading fails (the `.unwrap()` panics) when a record
whose first line has at least 32 characters carries a malformed epoch
field; but a record whose first line is shorter than 32 characters —
epoch field absent — is silently skipped and loading continues. -/
theorem from_file_epoch_error_behavior :
    (∀ (line1 line2 : String) (rest : List String), line1.length < 32 →
      tles_from_lines (line1 :: line2 :: rest) = tles_from_lines rest) ∧
    (∀ (line1 line2 : String) (rest : List String), 32 ≤ line1.length →
      tle_epoch_to_timestamp ((line1.toList.drop 18).take 14) = none →
      tles_from_lines (line1 :: line2 :: rest) = none) := by
  constructor
  · intro line1 line2 rest h
    simp only [tles_from_lines]
    rw [if_neg (by omega)]
  · intro line1 line2 rest h hparse
    simp only [tles_from_lines]
    rw [if_pos h, hparse]

/-- Witness for `from_file_epoch_error_behavior`: the short line
`"short"` is skipped; the all-letters 32-character line aborts. -/
theorem from_file_epoch_error_behavior_witness :
    (("short" : String).length < 32 ∧
      tles_from_lines ["short", "x"] = tles_from_lines []) ∧
    (32 ≤ ("AAAAAAAAAAAAAAAAAAAAAAAAAAAAAAAA" : String).length ∧
      tle_epoch_to_timestamp
        ((("AAAAAAAAAAAAAAAAAAAAAAAAAAAAAAAA" : String).toList.drop 18).take 14)
        = none ∧
      tles_from_lines ["AAAAAAAAAAAAAAAAAAAAAAAAAAAAAAAA", "x"] = none) :=
  ⟨⟨by decide, from_file_epoch_error_behavior.1 "short" "x" [] (by decide)⟩,
   ⟨by decide, by decide,
    from_file_epoch_error_behavior.2 "AAAAAAAAAAAAAAAAAAAAAAAAAAAAAAAA" "x" []
      (by decide) (by decide)⟩⟩

/-! ## Correlation pipeline (`src/main.rs`, C5 and C10)

The parallel map body of `main` (lines 77–110).  `orbitals` abstracts
`orbitals[tle_index].get_passes(start, interval, lon, lat)` — the pass
search is a pure function of its arguments (it reads only the immutable
elements), exactly the shape in which the closure consumes it.  The
per-fix interpolation cursor is the closure-local `interp_index`,
initialised to the fix's own index and threaded through the loop. -/

/-- One iteration of the `for pass_event in pass_events` loop: state is
`(events accumulated so far, interp_index)`. -/
def process_fix_step (bdeck : BDeck)
    (orbitals : ℕ → ℚ → ℚ → ℚ → ℚ → List SatPassEvent) (tle_index : ℕ)
    (intensity_thres distance_thres : ℚ)
    (st : List TCSatPassEvent × ℕ) (pass_event : SatPassEvent) :
    List TCSatPassEvent × ℕ :=
  let ptime := pass_event.cpa_time
  match bdeck.interpolate_with_index ptime st.2 with
  | (none, idx2) => (st.1, idx2)
  | (some (lat_i, lon_i, intens_i), idx2) =>
    if intens_i < intensity_thres then (st.1, idx2)
    else
      let pass_refined := orbitals tle_index (ptime - 1800) 3600 lon_i lat_i
      (st.1 ++ pass_refined.filterMap (fun refined_event =>
        if refined_event.cpa_distance ≤ distance_thres then
          some { cpa_time := refined_event.cpa_time
                 cpa_distance := refined_event.cpa_distance
                 sat_zenith := 90 - refined_event.elevation
                 intensity := intens_i }
        else none), idx2)

/-- The per-fix unit of work of the pipeline: select the element record
for the fix's time (skip the fix if none), run the pass search over
`[time, time + step_sec]` at the fix's own position, and for each
candidate interpolate the track at the candidate's closest-approach
time, filter by intensity, re-run the search over the ±30-minute window
around it at the interpolated position, and keep refined events within
the distance threshold. -/
def process_fix (bdeck : BDeck) (tle_manager : TLEManager)
    (orbitals : ℕ → ℚ → ℚ → ℚ → ℚ → List SatPassEvent)
    (step_sec intensity_thres distance_thres : ℚ) (i : ℕ) :
    List TCSatPassEvent :=
  let time := bdeck.time.getD i 0
  let lon := bdeck.longitude.getD i 0
  let lat := bdeck.latitude.getD i 0
  match tle_manager.select_tle_index time with
  | none => []
  | some tle_index =>
    let pass_events := orbitals tle_index time step_sec lon lat
    (pass_events.foldl
      (process_fix_step bdeck orbitals tle_index intensity_thres distance_thres)
      ([], i)).1

/-- The sequential reference run: map the per-fix work over all fix
indices in order and concatenate (`collect` + `flatten` of the source). -/
def pipeline (bdeck : BDeck) (tle_manager : TLEManager)
    (orbitals : ℕ → ℚ → ℚ → ℚ → ℚ → List SatPassEvent)
    (step_sec intensity_thres distance_thres : ℚ) : List TCSatPassEvent :=
  ((List.range bdeck.time.length).map
    (process_fix bdeck tle_manager orbitals step_sec intensity_thres
      distance_thres)).flatten

/-- Invariant of the candidate loop: every accumulated event either was
already in the accumulator or satisfies all the emission conditions of
the source for some candidate pass event of the list. -/
theorem process_fix_foldl_inv (bdeck : BDeck)
    (orbitals : ℕ → ℚ → ℚ → ℚ → ℚ → List SatPassEvent) (tle_index : ℕ)
    (intensity_thres distance_thres : ℚ) :
    ∀ (l : List SatPassEvent) (acc : List TCSatPassEvent) (idx : ℕ),
      ∀ e ∈ (l.foldl (process_fix_step bdeck orbitals tle_index
          intensity_thres distance_thres) (acc, idx)).1,
        e ∈ acc ∨ ∃ pe ∈ l, ∃ cursor lat_i lon_i intens_i refined_event,
          (bdeck.interpolate_with_index pe.cpa_time cursor).1
            = some (lat_i, lon_i, intens_i) ∧
          ¬(intens_i < intensity_thres) ∧
          refined_event ∈ orbitals tle_index (pe.cpa_time - 1800) 3600 lon_i lat_i ∧
          refined_event.cpa_distance ≤ distance_thres ∧
          e = { cpa_time := refined_event.cpa_time
                cpa_distance := refined_event.cpa_distance
                sat_zenith := 90 - refined_event.elevation
                intensity := intens_i } := by
  intro l
  induction l with
  | nil =>
    intro acc idx e he
    exact Or.inl he
  | cons a l ih =>
    intro acc idx e he
    rw [List.foldl_cons] at he
    rcases hint : bdeck.interpolate_with_index a.cpa_time idx with ⟨res, idx2⟩
    cases res with
    | none =>
      have hstep : process_fix_step bdeck orbitals tle_index intensity_thres
          distance_thres (acc, idx) a = (acc, idx2) := by
        unfold process_fix_step
        dsimp only
        rw [hint]
      rw [hstep] at he
      rcases ih acc idx2 e he with h | ⟨pe, hpe, rest⟩
      · exact Or.inl h
      · exact Or.inr ⟨pe, List.mem_cons_of_mem a hpe, rest⟩
    | some triple =>
      obtain ⟨lat_i, lon_i, intens_i⟩ := triple
      by_cases hth : intens_i < intensity_thres
      · have hstep : process_fix_step bdeck orbitals tle_index intensity_thres
            distance_thres (acc, idx) a = (acc, idx2) := by
          unfold process_fix_step
          dsimp only
          rw [hint]
          dsimp only
          rw [if_pos hth]
        rw [hstep] at he
        rcases ih acc idx2 e he with h | ⟨pe, hpe, rest⟩
        · exact Or.inl h
        · exact Or.inr ⟨pe, List.mem_cons_of_mem a hpe, rest⟩
      · have hstep : process_fix_step bdeck orbitals tle_index intensity_thres
            distance_thres (acc, idx) a =
            (acc ++ (orbitals tle_index (a.cpa_time - 1800) 3600 lon_i
              lat_i).filterMap (fun refined_event =>
                if refined_event.cpa_distance ≤ distance_thres then
                  some { cpa_time := refined_event.cpa_time
                         cpa_distance := refined_event.cpa_distance
                         sat_zenith := 90 - refined_event.elevation
                         intensity := intens_i }
                else none), idx2) := by
          unfold process_fix_step
          dsimp only
          rw [hint]
          dsimp only
          rw [if_neg hth]
        rw [hstep] at he
        rcases ih _ idx2 e he with h | ⟨pe, hpe, rest⟩
        · rcases List.mem_append.mp h with h | h
          · exact Or.inl h
          · rcases List.mem_filterMap.mp h with ⟨re, hre, hcond⟩
            by_cases hd : re.cpa_distance ≤ distance_thres
            · rw [if_pos hd] at hcond
              exact Or.inr ⟨a, List.mem_cons_self a l, idx, lat_i, lon_i,
                intens_i, re, by rw [hint], hth, hre, hd,
                (Option.some.inj hcond).symm⟩
            · rw [if_neg hd] at hcond
              exact absurd hcond (by simp)
        · exact Or.inr ⟨pe, List.mem_cons_of_mem a hpe, rest⟩

/-- The per-fix form of the C5 conditions. -/
theorem process_fix_event_conditions (bdeck : BDeck) (tle_manager : TLEManager)
    (orbitals : ℕ → ℚ → ℚ → ℚ → ℚ → List SatPassEvent)
    (step_sec intensity_thres distance_thres : ℚ) (i : ℕ) :
    ∀ event ∈ process_fix bdeck tle_manager orbitals step_sec intensity_thres
        distance_thres i,
      ∃ tle_index,
        tle_manager.select_tle_index (bdeck.time.getD i 0) = some tle_index ∧
        ∃ pe ∈ orbitals tle_index (bdeck.time.getD i 0) step_sec
            (bdeck.longitude.getD i 0) (bdeck.latitude.getD i 0),
        ∃ cursor lat_i lon_i intens_i refined_event,
          (bdeck.interpolate_with_index pe.cpa_time cursor).1
            = some (lat_i, lon_i, intens_i) ∧
          ¬(intens_i < intensity_thres) ∧
          refined_event ∈ orbitals tle_index (pe.cpa_time - 1800) 3600 lon_i lat_i ∧
          refined_event.cpa_distance ≤ distance_thres ∧
          event = { cpa_time := refined_event.cpa_time
                    cpa_distance := refined_event.cpa_distance
                    sat_zenith := 90 - refined_event.elevation
                    intensity := intens_i } := by
  intro event he
  cases hsel : tle_manager.select_tle_index (bdeck.time.getD i 0) with
  | none =>
    have hpf : process_fix bdeck tle_manager orbitals step_sec intensity_thres
        distance_thres i = [] := by
      unfold process_fix
      dsimp only
      rw [hsel]
    rw [hpf] at he
    exact absurd he (List.not_mem_nil event)
  | some tle_index =>
    have hpf : process_fix bdeck tle_manager orbitals step_sec intensity_thres
        distance_thres i =
        ((orbitals tle_index (bdeck.time.getD i 0) step_sec
          (bdeck.longitude.getD i 0) (bdeck.latitude.getD i 0)).foldl
          (process_fix_step bdeck orbitals tle_index intensity_thres
            distance_thres) ([], i)).1 := by
      unfold process_fix
      dsimp only
      rw [hsel]
    rw [hpf] at he
    rcases process_fix_foldl_inv bdeck orbitals tle_index intensity_thres
        distance_thres _ [] i event he with h | ⟨pe, hpe, rest⟩
    · exact absurd h (List.not_mem_nil event)
    · exact ⟨tle_index, rfl, pe, hpe, rest⟩

/-- C5.  Every Correlated Event emitted by the pipeline satisfies all
of: an element record was selected for its fix; the event's candidate
came from the pass search at the fix; the track interpolation at the
candidate's closest-approach time succeeded; the interpolated intensity
is not below the intensity threshold; the refined event's ground
distance is at most the distance threshold; the event's zenith angle is
90° minus the refined event's elevation; and its intensity field is the
interpolated intensity. -/
theorem correlated_event_conditions (bdeck : BDeck) (tle_manager : TLEManager)
    (orbitals : ℕ → ℚ → ℚ → ℚ → ℚ → List SatPassEvent)
    (step_sec intensity_thres distance_thres : ℚ) :
    ∀ event ∈ pipeline bdeck tle_manager orbitals step_sec intensity_thres
        distance_thres,
      ∃ i, i < bdeck.time.length ∧
      ∃ tle_index,
        tle_manager.select_tle_index (bdeck.time.getD i 0) = some tle_index ∧
        ∃ pe ∈ orbitals tle_index (bdeck.time.getD i 0) step_sec
            (bdeck.longitude.getD i 0) (bdeck.latitude.getD i 0),
        ∃ cursor lat_i lon_i intens_i refined_event,
          (bdeck.interpolate_with_index pe.cpa_time cursor).1
            = some (lat_i, lon_i, intens_i) ∧
          ¬(intens_i < intensity_thres) ∧
          refined_event ∈ orbitals tle_index (pe.cpa_time - 1800) 3600 lon_i lat_i ∧
          refined_event.cpa_distance ≤ distance_thres ∧
          event = { cpa_time := refined_event.cpa_time
                    cpa_distance := refined_event.cpa_distance
                    sat_zenith := 90 - refined_event.elevation
                    intensity := intens_i } := by
  intro event he
  unfold pipeline at he
  rcases List.mem_flatten.mp he with ⟨l, hl, hel⟩
  rcases List.mem_map.mp hl with ⟨i, hi, rfl⟩
  exact ⟨i, List.mem_range.mp hi,
    process_fix_event_conditions bdeck tle_manager orbitals step_sec
      intensity_thres distance_thres i event hel⟩

/-- Witness for `correlated_event_conditions`: a concrete two-fix track,
a one-record element store, and a pass search returning one candidate;
the pipeline produces the event twice (once per fix) and the theorem
applies to it. -/
theorem correlated_event_conditions_witness :
    (⟨50, 10, 70, 50⟩ : TCSatPassEvent) ∈
      pipeline (BDeck.mk [0, 100] [50, 50] [0, 0] [0, 0])
        (TLEManager.mk [⟨"", "", 0⟩])
        (fun _ _ _ _ _ => [⟨50, 10, 20⟩]) 3600 40 100 ∧
    (∃ i, i < (BDeck.mk [0, 100] [50, 50] [0, 0] [0, 0]).time.length ∧
      ∃ tle_index,
        (TLEManager.mk [⟨"", "", 0⟩]).select_tle_index
            ((BDeck.mk [0, 100] [50, 50] [0, 0] [0, 0]).time.getD i 0)
          = some tle_index ∧
        ∃ pe ∈ [(⟨50, 10, 20⟩ : SatPassEvent)],
        ∃ cursor lat_i lon_i intens_i refined_event,
          ((BDeck.mk [0, 100] [50, 50] [0, 0] [0, 0]).interpolate_with_index
              pe.cpa_time cursor).1 = some (lat_i, lon_i, intens_i) ∧
          ¬(intens_i < (40:ℚ)) ∧
          refined_event ∈ [(⟨50, 10, 20⟩ : SatPassEvent)] ∧
          refined_event.cpa_distance ≤ (100:ℚ) ∧
          (⟨50, 10, 70, 50⟩ : TCSatPassEvent)
            = { cpa_time := refined_event.cpa_time
                cpa_distance := refined_event.cpa_distance
                sat_zenith := 90 - refined_event.elevation
                intensity := intens_i }) := by
  have hrun : pipeline (BDeck.mk [0, 100] [50, 50] [0, 0] [0, 0])
      (TLEManager.mk [⟨"", "", 0⟩])
      (fun _ _ _ _ _ => [⟨50, 10, 20⟩]) 3600 40 100
      = [⟨50, 10, 70, 50⟩, ⟨50, 10, 70, 50⟩] := by
    norm_num [pipeline, process_fix, process_fix_step,
      TLEManager.select_tle_index, TLEManager.epochs, rustBinarySearch,
      rustBinarySearchGo, cmpAt, fabs, BDeck.interpolate_with_index,
      BDeck.finishInterp, BDeck.vals, BDeck.lerpAt, advanceIdx, advanceGo,
      List.filterMap_cons, List.range_succ]
  have hmem : (⟨50, 10, 70, 50⟩ : TCSatPassEvent) ∈
      pipeline (BDeck.mk [0, 100] [50, 50] [0, 0] [0, 0])
        (TLEManager.mk [⟨"", "", 0⟩])
        (fun _ _ _ _ _ => [⟨50, 10, 20⟩]) 3600 40 100 := by
    rw [hrun]
    exact List.mem_cons_self _ _
  exact ⟨hmem, correlated_event_conditions _ _ _ _ _ _ _ hmem⟩

/-- Concatenating per-chunk flattenings is flattening over the
concatenated chunks. -/
theorem flatten_map_flatten {α β : Type} (f : α → List β) :
    ∀ chunks : List (List α),
      (chunks.map (fun c => (c.map f).flatten)).flatten
        = (chunks.flatten.map f).flatten
  | [] => rfl
  | c :: cs => by
    simp only [List.map_cons, List.flatten_cons, List.map_append,
      List.flatten_append, flatten_map_flatten f cs]

/-- C10.  The per-fix unit of work `process_fix` is a pure function of
the fix index and the shared read-only inputs (element store, track
store, pass-search function, thresholds) — its cursor is initialised
from the fix's own index, never shared — so however the fix indices are
partitioned into worker chunks, the concatenation of the workers'
outputs is a permutation of (order-independently equal to) the
single-worker run over `0..len`. -/
theorem pipeline_partition_independent (bdeck : BDeck)
    (tle_manager : TLEManager)
    (orbitals : ℕ → ℚ → ℚ → ℚ → ℚ → List SatPassEvent)
    (step_sec intensity_thres distance_thres : ℚ)
    (chunks : List (List ℕ))
    (hcover : List.Perm chunks.flatten (List.range bdeck.time.length)) :
    List.Perm
      ((chunks.map (fun c => (c.map (process_fix bdeck tle_manager orbitals
        step_sec intensity_thres distance_thres)).flatten)).flatten)
      (pipeline bdeck tle_manager orbitals step_sec intensity_thres
        distance_thres) := by
  rw [flatten_map_flatten]
  unfold pipeline
  exact List.Perm.flatten (hcover.map _)

/-- Witness for `pipeline_partition_independent`: two fixes, the chunk
partition `[[1], [0]]` (reversed order), and an empty element store. -/
theorem pipeline_partition_independent_witness :
    List.Perm ([[1], [0]] : List (List ℕ)).flatten
      (List.range (BDeck.mk [0, 100] [0, 0] [0, 0] [0, 0]).time.length) ∧
    List.Perm
      (([[1], [0]] : List (List ℕ)).map (fun c =>
        (c.map (process_fix (BDeck.mk [0, 100] [0, 0] [0, 0] [0, 0])
          (TLEManager.mk []) (fun _ _ _ _ _ => []) 3600 40 100)).flatten)).flatten
      (pipeline (BDeck.mk [0, 100] [0, 0] [0, 0] [0, 0])
        (TLEManager.mk []) (fun _ _ _ _ _ => []) 3600 40 100) :=
  ⟨by decide,
   pipeline_partition_independent (BDeck.mk [0, 100] [0, 0] [0, 0] [0, 0])
     (TLEManager.mk []) (fun _ _ _ _ _ => []) 3600 40 100 [[1], [0]]
     (by decide)⟩

end Satpass
